import Mathlib

/-!
Shallow embedding of the Secret Santa derangement core
(`shuffle`, `isDerangement`, `generateDerangement`, `validateAssignments`
from the derangement module of the repository), together with proofs of
the specified properties.

Conventions of the embedding:
* TypeScript arrays are Lean `List`s.
* `Math.random()`-driven draws are an explicit oracle: each shuffle takes a
  list of chosen indices (one per loop iteration), and the generator takes a
  function from the attempt number to that attempt's choice list.
* `console.log` / `console.error` calls are recorded in the result, so the
  two distinct failure messages of the generator stay observable.
* JavaScript `null` is `Option.none`.
-/

namespace SecretSanta

open scoped List

/-- Participant shape from the types module: stable opaque `id` plus a
display `name`. -/
structure Participant where
  id : String
  name : String
deriving DecidableEq, Repr

/-- Assignment shape: `giverId` gifts `receiverId`, both participant ids. -/
structure Assignment where
  giverId : String
  receiverId : String
deriving DecidableEq, Repr

/-- A recorded console call (`console.log` or `console.error`). -/
inductive ConsoleEntry where
  | log (msg : String)
  | error (msg : String)
deriving DecidableEq, Repr

/-- The body of the `for (const assignment of assignments)` loop of
`validateAssignments`: walks the assignment list carrying the mutable
`giverIds` / `receiverIds` sets (modelled as lists of the elements added so
far; every element is membership-checked before being added, so they stay
duplicate-free and their length is the JS `Set.size`).  Returns `none` when
some check inside the loop returns `false`, and the two accumulated sets
when the loop runs to completion. -/
def validateLoop (participantIds : List String) :
    List Assignment → List String → List String → Option (List String × List String)
  | [], givers, receivers => some (givers, receivers)
  | a :: rest, givers, receivers =>
    if !(participantIds.contains a.giverId) || !(participantIds.contains a.receiverId) then
      none
    else if a.giverId == a.receiverId then
      none
    else if givers.contains a.giverId || receivers.contains a.receiverId then
      none
    else
      validateLoop participantIds rest (a.giverId :: givers) (a.receiverId :: receivers)

/-- `validateAssignments` from the derangement module: length check, then the
per-assignment loop (membership of both ids, no self-assignment, no repeated
giver or receiver), then the final distinct-count comparison.  The JS
`Set` of participant ids is modelled by the id list, of which only membership
is consulted. -/
def validateAssignments (participants : List Participant)
    (assignments : List Assignment) : Bool :=
  if assignments.length != participants.length then
    false
  else
    match validateLoop (participants.map (·.id)) assignments [] [] with
    | none => false
    | some (givers, receivers) =>
      givers.length == participants.length && receivers.length == participants.length

example : validateAssignments
    [⟨"A", "A"⟩, ⟨"B", "B"⟩, ⟨"C", "C"⟩]
    [⟨"A", "B"⟩, ⟨"B", "C"⟩, ⟨"C", "A"⟩] = true := by decide

example : validateAssignments
    [⟨"A", "A"⟩, ⟨"B", "B"⟩, ⟨"C", "C"⟩]
    [⟨"A", "A"⟩, ⟨"B", "C"⟩, ⟨"C", "A"⟩] = false := by decide

example : validateAssignments [] [] = true := by decide

/-- Full characterisation of the validation loop: it succeeds exactly when
every assignment passes the membership and no-self checks and the giver
(resp. receiver) ids are duplicate-free, both among themselves and against
the ids already accumulated; on success the accumulated sets are the giver
and receiver ids in reverse order of processing. -/
theorem validateLoop_eq_some (pids : List String) (as : List Assignment) :
    ∀ (gs rs : List String) (out : List String × List String),
      validateLoop pids as gs rs = some out ↔
        ((∀ a ∈ as, a.giverId ∈ pids ∧ a.receiverId ∈ pids ∧ a.giverId ≠ a.receiverId) ∧
          (as.map (·.giverId)).Nodup ∧ (∀ a ∈ as, a.giverId ∉ gs) ∧
          (as.map (·.receiverId)).Nodup ∧ (∀ a ∈ as, a.receiverId ∉ rs) ∧
          out = ((as.map (·.giverId)).reverse ++ gs,
                 (as.map (·.receiverId)).reverse ++ rs)) := by
  induction as with
  | nil => intro gs rs out; simp [validateLoop, eq_comm]
  | cons a rest ih =>
    intro gs rs out
    simp only [validateLoop]
    split_ifs with h1 h2 h3
    · simp only [Bool.or_eq_true, Bool.not_eq_true', List.elem_eq_mem,
        decide_eq_false_iff_not] at h1
      constructor
      · intro h; exact absurd h (by simp)
      · rintro ⟨hmem, -⟩
        obtain ⟨hg, hr, -⟩ := hmem a (List.mem_cons_self a rest)
        rcases h1 with h1 | h1
        · exact absurd hg h1
        · exact absurd hr h1
    · simp only [beq_iff_eq] at h2
      constructor
      · intro h; exact absurd h (by simp)
      · rintro ⟨hmem, -⟩
        obtain ⟨-, -, hne⟩ := hmem a (List.mem_cons_self a rest)
        exact absurd h2 hne
    · simp only [Bool.or_eq_true, List.elem_eq_mem, decide_eq_true_eq] at h3
      constructor
      · intro h; exact absurd h (by simp)
      · rintro ⟨-, -, hgacc, -, hracc, -⟩
        rcases h3 with h3 | h3
        · exact absurd h3 (hgacc a (List.mem_cons_self a rest))
        · exact absurd h3 (hracc a (List.mem_cons_self a rest))
    · simp only [Bool.or_eq_true, Bool.not_eq_true', List.elem_eq_mem,
        decide_eq_false_iff_not, decide_eq_true_eq, not_or, not_not] at h1 h3
      simp only [beq_iff_eq] at h2
      rw [ih]
      simp only [List.map_cons, List.nodup_cons, List.mem_cons, forall_eq_or_imp,
        List.mem_map, List.reverse_cons, List.append_assoc, List.singleton_append,
        not_exists, not_and, not_or]
      constructor
      · rintro ⟨hmem, hgn, hgacc, hrn, hracc, hout⟩
        exact ⟨⟨⟨h1.1, h1.2, h2⟩, hmem⟩,
          ⟨fun a' ha' hg => (hgacc a' ha').1 hg, hgn⟩,
          ⟨h3.1, fun a' ha' => (hgacc a' ha').2⟩,
          ⟨fun a' ha' hr => (hracc a' ha').1 hr, hrn⟩,
          ⟨h3.2, fun a' ha' => (hracc a' ha').2⟩, hout⟩
      · rintro ⟨⟨-, hmem⟩, ⟨hgfresh, hgn⟩, ⟨-, hgacc⟩, ⟨hrfresh, hrn⟩, ⟨-, hracc⟩, hout⟩
        exact ⟨hmem, hgn, fun a' ha' => ⟨hgfresh a' ha', hgacc a' ha'⟩,
          hrn, fun a' ha' => ⟨hrfresh a' ha', hracc a' ha'⟩, hout⟩

/-- `validateAssignments` returns `true` exactly when the lengths agree, every
assignment references known ids and is not a self-assignment, and neither the
giver ids nor the receiver ids repeat.  (The final distinct-count comparison
of the source is automatically satisfied in this situation, because each of
the `participants.length` assignments contributes one fresh giver and one
fresh receiver.) -/
theorem validateAssignments_eq_true_iff (ps : List Participant) (as : List Assignment) :
    validateAssignments ps as = true ↔
      as.length = ps.length ∧
      (∀ a ∈ as, a.giverId ∈ ps.map (·.id) ∧ a.receiverId ∈ ps.map (·.id) ∧
        a.giverId ≠ a.receiverId) ∧
      (as.map (·.giverId)).Nodup ∧ (as.map (·.receiverId)).Nodup := by
  unfold validateAssignments
  by_cases hlen : as.length = ps.length
  · rw [if_neg (by simp [hlen])]
    obtain hv | ⟨⟨gs, rs⟩, hv⟩ :=
      Option.eq_none_or_eq_some (validateLoop (ps.map (·.id)) as [] [])
    · rw [hv]
      constructor
      · intro h; cases h
      · rintro ⟨-, hmem, hgn, hrn⟩
        have hsome := (validateLoop_eq_some (ps.map (·.id)) as [] []
          ((as.map (·.giverId)).reverse, (as.map (·.receiverId)).reverse)).mpr
          ⟨hmem, hgn, by simp, hrn, by simp, by simp⟩
        rw [hv] at hsome
        cases hsome
    · rw [hv]
      rw [validateLoop_eq_some] at hv
      obtain ⟨hmem, hgn, -, hrn, -, hout⟩ := hv
      injection hout with hgs hrs
      subst hgs hrs
      simp only [List.append_nil, List.length_reverse, List.length_map, hlen,
        beq_self_eq_true, Bool.and_self]
      simp only [true_iff]
      exact ⟨trivial, hmem, hgn, hrn⟩
  · rw [if_pos (by simpa using hlen)]
    constructor
    · intro h; cases h
    · rintro ⟨h, -⟩
      exact absurd h hlen

/-- A duplicate-free list whose members all come from `m` cannot be longer
than `m`'s list of distinct elements. -/
theorem nodup_length_le_dedup_length {α : Type _} [DecidableEq α]
    {l m : List α} (hl : l.Nodup) (hsub : ∀ x ∈ l, x ∈ m) :
    l.length ≤ m.dedup.length := by
  have hcard : l.toFinset.card = l.length := List.toFinset_card_of_nodup hl
  have hsub' : l.toFinset ⊆ m.toFinset := by
    intro x hx
    rw [List.mem_toFinset] at hx ⊢
    exact hsub x hx
  calc l.length = l.toFinset.card := hcard.symm
    _ ≤ m.toFinset.card := Finset.card_le_card hsub'
    _ = m.dedup.length := List.card_toFinset m

/-- C1: `validate(participants, assignments)` returns `true` iff the lengths
agree, every assignment's ids are participant ids, there is no
self-assignment, no giver and no receiver repeats, and the distinct giver and
receiver counts both equal `participants.length`; in particular each of the
four tampering examples over `[A, B, C]` is rejected. -/
theorem validateAssignments_spec :
    (∀ (ps : List Participant) (as : List Assignment),
      validateAssignments ps as = true ↔
        (as.length = ps.length ∧
         (∀ a ∈ as, a.giverId ∈ ps.map (·.id) ∧ a.receiverId ∈ ps.map (·.id)) ∧
         (∀ a ∈ as, a.giverId ≠ a.receiverId) ∧
         (as.map (·.giverId)).Nodup ∧ (as.map (·.receiverId)).Nodup ∧
         (as.map (·.giverId)).dedup.length = ps.length ∧
         (as.map (·.receiverId)).dedup.length = ps.length)) ∧
    validateAssignments [⟨"A", "A"⟩, ⟨"B", "B"⟩, ⟨"C", "C"⟩]
      [⟨"A", "B"⟩, ⟨"B", "C"⟩, ⟨"C", "A"⟩] = true ∧
    validateAssignments [⟨"A", "A"⟩, ⟨"B", "B"⟩, ⟨"C", "C"⟩]
      [⟨"A", "A"⟩, ⟨"B", "C"⟩, ⟨"C", "A"⟩] = false ∧
    validateAssignments [⟨"A", "A"⟩, ⟨"B", "B"⟩, ⟨"C", "C"⟩]
      [⟨"A", "B"⟩, ⟨"B", "B"⟩, ⟨"C", "A"⟩] = false ∧
    validateAssignments [⟨"A", "A"⟩, ⟨"B", "B"⟩, ⟨"C", "C"⟩]
      [⟨"A", "B"⟩, ⟨"B", "C"⟩] = false ∧
    validateAssignments [⟨"A", "A"⟩, ⟨"B", "B"⟩, ⟨"C", "C"⟩]
      [⟨"A", "B"⟩, ⟨"B", "C"⟩, ⟨"C", "D"⟩] = false := by
  refine ⟨fun ps as => ?_, by decide, by decide, by decide, by decide, by decide⟩
  rw [validateAssignments_eq_true_iff]
  constructor
  · rintro ⟨hlen, hmem, hgn, hrn⟩
    refine ⟨hlen, fun a ha => ⟨(hmem a ha).1, (hmem a ha).2.1⟩,
      fun a ha => (hmem a ha).2.2, hgn, hrn, ?_, ?_⟩
    · rw [List.dedup_eq_self.mpr hgn, List.length_map, hlen]
    · rw [List.dedup_eq_self.mpr hrn, List.length_map, hlen]
  · rintro ⟨hlen, hmem, hne, hgn, hrn, -, -⟩
    exact ⟨hlen, fun a ha => ⟨(hmem a ha).1, (hmem a ha).2, hne a ha⟩, hgn, hrn⟩

/-- C9: successful validation forces the participant ids to be pairwise
distinct — with a duplicated id, the distinct-giver count can never reach
`participants.length`. -/
theorem validateAssignments_true_implies_nodup_ids
    (ps : List Participant) (as : List Assignment)
    (h : validateAssignments ps as = true) : (ps.map (·.id)).Nodup := by
  rw [validateAssignments_eq_true_iff] at h
  obtain ⟨hlen, hmem, hgn, -⟩ := h
  have hle : (as.map (·.giverId)).length ≤ (ps.map (·.id)).dedup.length :=
    nodup_length_le_dedup_length hgn (by
      intro x hx
      rw [List.mem_map] at hx
      obtain ⟨a, ha, rfl⟩ := hx
      exact (hmem a ha).1)
  have hlen' : (ps.map (·.id)).dedup.length = (ps.map (·.id)).length := by
    have hdl : (ps.map (·.id)).dedup.length ≤ (ps.map (·.id)).length :=
      (List.dedup_sublist _).length_le
    have : (ps.map (·.id)).length ≤ (ps.map (·.id)).dedup.length := by
      simpa [hlen] using hle
    omega
  rw [← List.dedup_eq_self]
  exact (List.dedup_sublist _).eq_of_length hlen'

/-- Closed instance of C9: a concrete valid two-person draw, from which the
theorem yields distinctness of the ids. -/
theorem validateAssignments_true_implies_nodup_ids_witness :
    ([⟨"A", "A"⟩, ⟨"B", "B"⟩].map (Participant.id ·)).Nodup :=
  validateAssignments_true_implies_nodup_ids
    [⟨"A", "A"⟩, ⟨"B", "B"⟩] [⟨"A", "B"⟩, ⟨"B", "A"⟩] (by decide)

/-- C10: the validator vacuously accepts the empty participant list together
with the empty assignment list. -/
theorem validateAssignments_empty : validateAssignments [] [] = true := by decide

/-! ### Defensive behaviour on malformed (untyped) input

The validator may be fed data parsed from a persisted blob or a URL payload,
so its fields need not actually be strings at runtime.  `JValue` models a
JavaScript primitive as far as `===` and `Set<string>.has` distinguish
values: a string, `undefined` (an absent field), a number, a boolean or
`null`.  `validateAssignmentsRaw` is the same source function evaluated under
these dynamic semantics. -/

/-- A JavaScript primitive value occupying an assignment field. -/
inductive JValue where
  | str (s : String)
  | undef
  | num (n : Int)
  | jsBool (b : Bool)
  | null
deriving DecidableEq, Repr

/-- Is this value actually a string? -/
def JValue.isStr : JValue → Bool
  | .str _ => true
  | _ => false

/-- An assignment as deserialised from untrusted data: the fields hold
arbitrary primitives (`undef` standing for an absent field). -/
structure RawAssignment where
  giverId : JValue
  receiverId : JValue
deriving DecidableEq, Repr

/-- `Set<string>.has(v)`: false for every non-string `v`. -/
def jhas (ids : List String) : JValue → Bool
  | .str s => ids.contains s
  | _ => false

/-- The validation loop under dynamic typing; `===` is `JValue` equality and
the giver/receiver `Set`s hold arbitrary primitives. -/
def validateLoopRaw (participantIds : List String) :
    List RawAssignment → List JValue → List JValue → Option (List JValue × List JValue)
  | [], givers, receivers => some (givers, receivers)
  | a :: rest, givers, receivers =>
    if !(jhas participantIds a.giverId) || !(jhas participantIds a.receiverId) then
      none
    else if a.giverId == a.receiverId then
      none
    else if givers.contains a.giverId || receivers.contains a.receiverId then
      none
    else
      validateLoopRaw participantIds rest (a.giverId :: givers) (a.receiverId :: receivers)

/-- `validateAssignments` evaluated on untrusted dynamic input. -/
def validateAssignmentsRaw (participants : List Participant)
    (assignments : List RawAssignment) : Bool :=
  if assignments.length != participants.length then
    false
  else
    match validateLoopRaw (participants.map (·.id)) assignments [] [] with
    | none => false
    | some (givers, receivers) =>
      givers.length == participants.length && receivers.length == participants.length

/-- Whenever the raw loop runs to completion, every processed field was a
genuine string (the membership check throws out everything else). -/
theorem validateLoopRaw_some_isStr (pids : List String) (ras : List RawAssignment) :
    ∀ (gs rs : List JValue) (out : List JValue × List JValue),
      validateLoopRaw pids ras gs rs = some out →
      ∀ a ∈ ras, a.giverId.isStr = true ∧ a.receiverId.isStr = true := by
  induction ras with
  | nil => intro gs rs out h a ha; cases ha
  | cons a rest ih =>
    intro gs rs out h a' ha'
    rw [validateLoopRaw] at h
    split_ifs at h with h1 h2 h3
    · have hg : jhas pids a.giverId = true := by
        rcases hj : jhas pids a.giverId with _ | _
        · simp [hj] at h1
        · rfl
      have hr : jhas pids a.receiverId = true := by
        rcases hj : jhas pids a.receiverId with _ | _
        · simp [hj] at h1
        · rfl
      rcases List.mem_cons.mp ha' with ha' | ha'
      · subst ha'
        constructor
        · cases hgv : a'.giverId <;> simp [jhas, JValue.isStr, hgv] at hg ⊢
        · cases hrv : a'.receiverId <;> simp [jhas, JValue.isStr, hrv] at hr ⊢
      · exact ih _ _ out h a' ha'

/-- The raw semantics agree with the typed embedding on well-typed input. -/
theorem validateAssignmentsRaw_coe (ps : List Participant) (as : List Assignment) :
    validateAssignmentsRaw ps
      (as.map fun a => ⟨JValue.str a.giverId, JValue.str a.receiverId⟩) =
      validateAssignments ps as := by
  have hloop : ∀ (as' : List Assignment) (gs rs : List String),
      validateLoopRaw (ps.map (·.id))
        (as'.map fun a => ⟨JValue.str a.giverId, JValue.str a.receiverId⟩)
        (gs.map JValue.str) (rs.map JValue.str) =
      (validateLoop (ps.map (·.id)) as' gs rs).map
        (fun p => (p.1.map JValue.str, p.2.map JValue.str)) := by
    intro as'
    induction as' with
    | nil => intro gs rs; simp [validateLoopRaw, validateLoop]
    | cons a rest ih =>
      intro gs rs
      have e1 : jhas (ps.map (·.id)) (JValue.str a.giverId) =
          (ps.map (·.id)).contains a.giverId := rfl
      have e2 : jhas (ps.map (·.id)) (JValue.str a.receiverId) =
          (ps.map (·.id)).contains a.receiverId := rfl
      have e3 : (JValue.str a.giverId == JValue.str a.receiverId) =
          (a.giverId == a.receiverId) := by
        simp [beq_iff_eq]
      have e4 : ((gs.map JValue.str).contains (JValue.str a.giverId)) =
          (gs.contains a.giverId) := by
        simp [List.elem_eq_mem, List.mem_map]
      have e5 : ((rs.map JValue.str).contains (JValue.str a.receiverId)) =
          (rs.contains a.receiverId) := by
        simp [List.elem_eq_mem, List.mem_map]
      simp only [List.map_cons, validateLoopRaw, validateLoop, e1, e2, e3, e4, e5]
      split_ifs with h1 h2 h3
      · rfl
      · rfl
      · rfl
      · exact ih (a.giverId :: gs) (a.receiverId :: rs)
  unfold validateAssignmentsRaw validateAssignments
  rw [List.length_map]
  by_cases hlen : as.length = ps.length
  · rw [if_neg (by simp [hlen]), if_neg (by simp [hlen])]
    have := hloop as [] []
    simp only [List.map_nil] at this
    rw [this]
    obtain hv | ⟨⟨gs, rs⟩, hv⟩ :=
      Option.eq_none_or_eq_some (validateLoop (ps.map (·.id)) as [] [])
    · rw [hv]
      rfl
    · rw [hv]
      simp [List.length_map]
  · rw [if_pos (by simpa using hlen), if_pos (by simpa using hlen)]

/-- C7: the validator is a total boolean function of its input even when
fields are absent or hold non-string primitives; any malformed field makes it
return `false` (it cannot pass the membership check), never an error.  On
well-typed input the dynamic semantics coincide with `validateAssignments`. -/
theorem validateAssignmentsRaw_total_defensive :
    (∀ (ps : List Participant) (ras : List RawAssignment),
      validateAssignmentsRaw ps ras = true ∨ validateAssignmentsRaw ps ras = false) ∧
    (∀ (ps : List Participant) (ras : List RawAssignment),
      (∃ a ∈ ras, a.giverId.isStr = false ∨ a.receiverId.isStr = false) →
      validateAssignmentsRaw ps ras = false) ∧
    (∀ (ps : List Participant) (as : List Assignment),
      validateAssignmentsRaw ps
        (as.map fun a => ⟨JValue.str a.giverId, JValue.str a.receiverId⟩) =
        validateAssignments ps as) := by
  refine ⟨fun ps ras => ?_, fun ps ras hmal => ?_, validateAssignmentsRaw_coe⟩
  · rcases h : validateAssignmentsRaw ps ras with _ | _
    · right; rfl
    · left; rfl
  · obtain ⟨a, ha, hbad⟩ := hmal
    unfold validateAssignmentsRaw
    split_ifs with hlen
    · rfl
    · obtain hv | ⟨⟨gs, rs⟩, hv⟩ :=
        Option.eq_none_or_eq_some (validateLoopRaw (ps.map (·.id)) ras [] [])
      · rw [hv]
      · obtain ⟨hg, hr⟩ := validateLoopRaw_some_isStr (ps.map (·.id)) ras [] [] _ hv a ha
        rcases hbad with hbad | hbad
        · rw [hg] at hbad; cases hbad
        · rw [hr] at hbad; cases hbad

/-! ### The Fisher–Yates shuffle

`shuffle` copies the input and, for `i` from the last index down to `1`,
swaps position `i` with a randomly drawn position `j ∈ [0, i]`.  The random
draws are made explicit: the parameter `js` lists the draw of each
iteration in order (the source's `Math.floor(Math.random() * (i + 1))`,
which always lies in `[0, i]`; the embedding reduces the supplied choice
mod `i + 1`, which is the identity on every value the source can draw, so
that an arbitrary oracle stays total).  After the swap at `(i, j)` position
`i` is never read or written again, so each recursive step splits it off
and recurses on the remaining prefix. -/

/-- The loop body's destructuring swap
`[result[i], result[j]] = [result[j], result[i]]` (identity when an index is
out of range, which the loop never produces). -/
def swapAt2 {α : Type _} (l : List α) (i j : Nat) : List α :=
  match l.get? i, l.get? j with
  | some a, some b => (l.set i b).set j a
  | _, _ => l

/-- `shuffle` from the derangement module, one recursive step per loop
iteration; with fewer than two elements the loop body never runs. -/
def shuffle {α : Type _} : List α → List Nat → List α
  | l, [] => l
  | l, j :: js =>
    if 2 ≤ l.length then
      let i := l.length - 1
      let l2 := swapAt2 l i (j % (i + 1))
      shuffle (l2.take i) js ++ l2.drop i
    else l

example : shuffle ["a", "b", "c"] [1, 0] = ["c", "a", "b"] := by decide
example : shuffle ["a", "b"] [1] = ["a", "b"] := by decide
example : shuffle ["a", "b"] [0] = ["b", "a"] := by decide

/-- Swapping the last position `l₀.length` with `j ≤ l₀.length`: position
`j` now holds the old last element and the last position holds the old
`j`-th element (`getD` with default `x` so that `j = l₀.length` is the
identity swap). -/
theorem swapAt2_concat {α : Type _} (l₀ : List α) (x : α) {j : Nat} (hj : j ≤ l₀.length) :
    swapAt2 (l₀ ++ [x]) l₀.length j = l₀.set j x ++ [l₀.getD j x] := by
  have hgi : (l₀ ++ [x]).get? l₀.length = some x := List.get?_concat_length l₀ x
  rcases Nat.lt_or_ge j l₀.length with hlt | hge
  · have hgj : (l₀ ++ [x]).get? j = some (l₀.getD j x) := by
      rw [List.get?_append hlt, List.get?_eq_get hlt, List.getD_eq_get l₀ x hlt]
    simp only [swapAt2, hgi, hgj]
    rw [List.set_append_right _ _ (le_refl _), Nat.sub_self]
    simp only [List.set_cons_zero]
    rw [List.set_append_left _ _ hlt]
  · have hj' : j = l₀.length := le_antisymm hj hge
    subst hj'
    simp only [swapAt2, hgi]
    rw [List.set_append_right _ _ (le_refl _), Nat.sub_self]
    simp only [List.set_cons_zero]
    rw [List.set_append_right _ _ (le_refl _), Nat.sub_self]
    simp only [List.set_cons_zero]
    rw [List.set_eq_of_length_le (le_refl _), List.getD_eq_default l₀ x (le_refl _)]

/-- Moving `v` into the middle and `u` to the back is a permutation. -/
theorem append_cons_concat_perm {α : Type _} (t d : List α) (u v : α) :
    (t ++ u :: d) ++ [v] ~ (t ++ v :: d) ++ [u] := by
  calc (t ++ u :: d) ++ [v] = t ++ (u :: (d ++ [v])) := by simp
    _ ~ t ++ (u :: (v :: d)) :=
        List.Perm.append_left t ((List.perm_append_singleton v d).cons u)
    _ ~ t ++ (v :: (u :: d)) := List.Perm.append_left t (List.Perm.swap v u d)
    _ ~ t ++ (v :: (d ++ [u])) :=
        List.Perm.append_left t (((List.perm_append_singleton u d).symm).cons v)
    _ = (t ++ v :: d) ++ [u] := by simp

/-- The result of one swap step is a permutation of the original list. -/
theorem set_concat_perm {α : Type _} (l₀ : List α) (x : α) {j : Nat} (hj : j ≤ l₀.length) :
    l₀.set j x ++ [l₀.getD j x] ~ l₀ ++ [x] := by
  rcases Nat.lt_or_ge j l₀.length with hlt | hge
  · rw [List.set_eq_take_cons_drop x hlt, List.getD_eq_get l₀ x hlt]
    have hl : l₀ ++ [x] = (l₀.take j ++ l₀.get ⟨j, hlt⟩ :: l₀.drop (j + 1)) ++ [x] := by
      rw [← List.drop_eq_get_cons hlt, List.take_append_drop]
    rw [hl]
    exact append_cons_concat_perm (l₀.take j) (l₀.drop (j + 1)) x (l₀.get ⟨j, hlt⟩)
  · have hj' : j = l₀.length := le_antisymm hj hge
    subst hj'
    rw [List.set_eq_of_length_le (le_refl _), List.getD_eq_default l₀ x (le_refl _)]

/-- Unfolding one Fisher–Yates iteration on a list written as
`prefix ++ [last]`. -/
theorem shuffle_concat_cons {α : Type _} (l₀ : List α) (x : α) (h1 : 1 ≤ l₀.length)
    (j : Nat) (js : List Nat) :
    shuffle (l₀ ++ [x]) (j :: js) =
      shuffle (l₀.set (j % (l₀.length + 1)) x) js ++
        [l₀.getD (j % (l₀.length + 1)) x] := by
  have hlen : (l₀ ++ [x]).length = l₀.length + 1 := by simp
  have hmod : j % (l₀.length + 1) ≤ l₀.length :=
    Nat.le_of_lt_succ (Nat.mod_lt _ (Nat.succ_pos _))
  rw [shuffle, if_pos (by omega)]
  simp only [hlen, Nat.add_sub_cancel]
  rw [swapAt2_concat l₀ x hmod]
  rw [List.take_left' (by simp), List.drop_left' (by simp)]

/-- C6 part 1 (as a standalone lemma): the shuffle's output is always a
rearrangement of its input, for every oracle. -/
theorem shuffle_perm {α : Type _} (js : List Nat) : ∀ l : List α, shuffle l js ~ l := by
  induction js with
  | nil => intro l; rw [shuffle]
  | cons j js ih =>
    intro l
    by_cases h : 2 ≤ l.length
    · rcases List.eq_nil_or_concat l with rfl | ⟨l₀, x, rfl⟩
      · simp at h
      · rw [List.concat_eq_append] at h ⊢
        have h1 : 1 ≤ l₀.length := by simp at h; omega
        have hmod : j % (l₀.length + 1) ≤ l₀.length :=
          Nat.le_of_lt_succ (Nat.mod_lt _ (Nat.succ_pos _))
        rw [shuffle_concat_cons l₀ x h1 j js]
        exact ((ih _).append_right _).trans (set_concat_perm l₀ x hmod)
    · rw [shuffle, if_neg h]

/-- A choice sequence for a list of length `n` as the source draws it: one
draw per iteration `i = n-1, …, 1`, each in `[0, i]`. -/
def ValidChoices : Nat → List Nat → Prop
  | 0, js => js = []
  | 1, js => js = []
  | _ + 2, [] => False
  | n + 2, j :: js => j ≤ n + 1 ∧ ValidChoices (n + 1) js

/-- For `j ≤ l₀.length`, `l₀.getD j x` is the element of `l₀ ++ [x]` at
position `j`. -/
theorem getD_concat_eq_get {α : Type _} (l₀ : List α) (x : α) {j : Nat}
    (hj : j ≤ l₀.length) :
    l₀.getD j x = (l₀ ++ [x]).get ⟨j, by simp [Nat.lt_succ_of_le hj]⟩ := by
  rcases Nat.lt_or_ge j l₀.length with hlt | hge
  · rw [List.getD_eq_get l₀ x hlt]
    simp [List.get_eq_getElem, List.getElem_append, hlt]
  · have hj' : j = l₀.length := le_antisymm hj hge
    subst hj'
    rw [List.getD_eq_default l₀ x (le_refl _)]
    simp [List.get_eq_getElem, List.getElem_concat_length]

/-- On a duplicate-free concatenation, the position of an element is unique:
two in-range indices with the same `getD` value agree. -/
theorem getD_concat_inj {α : Type _} {l₀ : List α} {x : α}
    (hnd : (l₀ ++ [x]).Nodup) {j₁ j₂ : Nat}
    (h₁ : j₁ ≤ l₀.length) (h₂ : j₂ ≤ l₀.length)
    (he : l₀.getD j₁ x = l₀.getD j₂ x) : j₁ = j₂ := by
  rw [getD_concat_eq_get l₀ x h₁, getD_concat_eq_get l₀ x h₂] at he
  have := (hnd.get_inj_iff).mp he
  exact congrArg Fin.val this

/-- Every member of a duplicate-free `l₀ ++ [x]` occupies exactly one
position, described through `getD` with default `x`. -/
theorem getD_concat_existsUnique {α : Type _} (l₀ : List α) (x : α) {y : α}
    (hnd : (l₀ ++ [x]).Nodup) (hy : y ∈ l₀ ++ [x]) :
    ∃! j, j ≤ l₀.length ∧ l₀.getD j x = y := by
  rcases List.mem_append.mp hy with hyl | hyx
  · obtain ⟨⟨j, hjlt⟩, hget⟩ := List.mem_iff_get.mp hyl
    refine ⟨j, ⟨Nat.le_of_lt hjlt, by rw [List.getD_eq_get l₀ x hjlt]; exact hget⟩, ?_⟩
    rintro j₂ ⟨hj₂, hj₂y⟩
    refine getD_concat_inj hnd hj₂ (Nat.le_of_lt hjlt) ?_
    rw [hj₂y, List.getD_eq_get l₀ x hjlt]
    exact hget.symm
  · have hyx' : y = x := List.mem_singleton.mp hyx
    subst hyx'
    refine ⟨l₀.length, ⟨le_refl _, List.getD_eq_default l₀ y (le_refl _)⟩, ?_⟩
    rintro j₂ ⟨hj₂, hj₂y⟩
    refine getD_concat_inj hnd hj₂ (le_refl _) ?_
    rw [hj₂y, List.getD_eq_default l₀ y (le_refl _)]

/-- C6 part 2 (as a standalone lemma): over a duplicate-free input, every
rearrangement is reached by exactly one valid choice sequence — the
combinatorial content of "every permutation is equally likely". -/
theorem shuffle_choices_existsUnique {α : Type _} (n : Nat) :
    ∀ (l out : List α), l.length = n → l.Nodup → out ~ l →
      ∃! js, ValidChoices n js ∧ shuffle l js = out := by
  induction n with
  | zero =>
    intro l out hlen hnd hperm
    have hl : l = [] := List.length_eq_zero.mp hlen
    subst hl
    have ho : out = [] := List.perm_nil.mp hperm
    subst ho
    exact ⟨[], ⟨rfl, rfl⟩, fun ys hys => hys.1⟩
  | succ m ih =>
    rcases m with _ | k
    · intro l out hlen hnd hperm
      obtain ⟨a, rfl⟩ := List.length_eq_one.mp hlen
      have ho : out = [a] := List.perm_singleton.mp hperm
      subst ho
      exact ⟨[], ⟨rfl, rfl⟩, fun ys hys => hys.1⟩
    · intro l out hlen hnd hperm
      rcases List.eq_nil_or_concat l with rfl | ⟨l₀, x, rfl⟩
      · cases hlen
      rw [List.concat_eq_append] at hlen hnd hperm ⊢
      have hlen₀ : l₀.length = k + 1 := by simpa using hlen
      have h1 : 1 ≤ l₀.length := by omega
      have houtlen : out.length = k + 2 := by rw [hperm.length_eq]; simpa using hlen
      rcases List.eq_nil_or_concat out with rfl | ⟨o₀, y, rfl⟩
      · cases houtlen
      rw [List.concat_eq_append] at hperm houtlen ⊢
      have ho₀len : o₀.length = k + 1 := by simpa using houtlen
      have hy : y ∈ l₀ ++ [x] := hperm.subset (by simp)
      obtain ⟨j, ⟨hj, hjy⟩, hjuniq⟩ := getD_concat_existsUnique l₀ x hnd hy
      have hj' : j % (l₀.length + 1) = j := Nat.mod_eq_of_lt (Nat.lt_succ_of_le hj)
      have hsetperm : l₀.set j x ++ [y] ~ l₀ ++ [x] := by
        rw [← hjy]; exact set_concat_perm l₀ x hj
      have hnd₂ : (l₀.set j x).Nodup :=
        (List.nodup_append.mp (hsetperm.nodup_iff.mpr hnd)).1
      have hperm₂ : o₀ ~ l₀.set j x := by
        have ha : o₀ ++ [y] ~ l₀.set j x ++ [y] := hperm.trans hsetperm.symm
        have hb : y :: o₀ ~ y :: l₀.set j x :=
          ((List.perm_append_singleton y o₀).symm.trans ha).trans
            (List.perm_append_singleton y _)
        exact hb.cons_inv
      have hlen₂ : (l₀.set j x).length = k + 1 := by simp [hlen₀]
      obtain ⟨js, ⟨hjsv, hjse⟩, hjsuniq⟩ := ih (l₀.set j x) o₀ hlen₂ hnd₂ hperm₂
      refine ⟨j :: js, ⟨⟨by omega, by rw [← hlen₀] at *; exact hjsv⟩, ?_⟩, ?_⟩
      · rw [shuffle_concat_cons l₀ x h1 j js, hj', hjy, hjse]
      · rintro ys ⟨hysv, hyse⟩
        rcases ys with _ | ⟨j₂, js₂⟩
        · exact absurd hysv (by rw [show (k + 2 : Nat) = k + 2 from rfl]; exact fun h => h)
        obtain ⟨hj₂le, hjs₂v⟩ := hysv
        have hj₂le' : j₂ ≤ l₀.length := by omega
        have hj₂' : j₂ % (l₀.length + 1) = j₂ :=
          Nat.mod_eq_of_lt (Nat.lt_succ_of_le hj₂le')
        rw [shuffle_concat_cons l₀ x h1 j₂ js₂, hj₂'] at hyse
        have hlenfront : (shuffle (l₀.set j₂ x) js₂).length = o₀.length := by
          rw [(shuffle_perm js₂ _).length_eq]
          simp [hlen₀, ho₀len]
        obtain ⟨hfront, hback⟩ := List.append_inj hyse hlenfront
        have hgd : l₀.getD j₂ x = y := by injection hback
        have hjeq : j₂ = j := hjuniq j₂ ⟨hj₂le', hgd⟩
        subst hjeq
        have hjseq : js₂ = js := hjsuniq js₂ ⟨by rw [← hlen₀] at *; exact hjs₂v, hfront⟩
        rw [hjseq]

/-- C6: `shuffle` is an unbiased Fisher–Yates shuffle.  Its output is always
a rearrangement of the input, and — with the random draws modelled as the
explicit choice sequence `js`, one draw `j ≤ i` per iteration
`i = length-1, …, 1` — every rearrangement of a (duplicate-free) input is
reached by exactly one valid choice sequence, so a uniform draw of the
choices induces a uniform distribution over the permutations. -/
theorem shuffle_fisher_yates_spec :
    (∀ (α : Type) (l : List α) (js : List Nat), List.Perm (shuffle l js) l) ∧
    (∀ (α : Type) (l out : List α), l.Nodup → List.Perm out l →
      ∃! js, ValidChoices l.length js ∧ shuffle l js = out) :=
  ⟨fun _ l js => shuffle_perm js l, fun _ l out hnd hperm =>
    shuffle_choices_existsUnique l.length l out rfl hnd hperm⟩

/-! ### The derangement generator -/

/-- `isDerangement` from the derangement module: the index loop
`for (i = 0; i < original.length; i++)` comparing `original[i]` with
`shuffled[i]` (an out-of-range read is `undefined`, i.e. `none`, which never
equals a present string). -/
def isDerangement (original shuffled : List String) : Bool :=
  (List.range original.length).all fun i => original.get? i != shuffled.get? i

example : isDerangement ["a", "b"] ["b", "a"] = true := by decide
example : isDerangement ["a", "b"] ["a", "b"] = false := by decide
example : isDerangement ["a", "b", "c"] ["b", "a", "c"] = false := by decide

/-- The `console.error` text of the insufficient-participants branch. -/
def insufficientMsg : String := "Need at least 2 participants for Secret Santa"

/-- The `console.log` text of the success branch (`attempt + 1` attempts). -/
def successMsg (attempt : Nat) : String :=
  "Derangement generated successfully in " ++ toString (attempt + 1) ++ " attempts"

/-- The `console.error` text of the exhausted branch. -/
def exhaustedMsg (maxAttempts : Nat) : String :=
  "Failed to generate derangement after " ++ toString maxAttempts ++ " attempts"

/-- The attempt loop of `generateDerangement`: try
`attempt = 0, 1, …, maxAttempts - 1` (the remaining count is the structural
fuel, `fuel = maxAttempts - attempt`), shuffling with the oracle's draws for
that attempt and returning the paired assignments on the first shuffle that
is a derangement; after the last attempt, return `null` having logged the
exhausted error. -/
def generateAttempts (ids : List String) (randoms : Nat → List Nat)
    (maxAttempts : Nat) : Nat → Nat → Option (List Assignment) × List ConsoleEntry
  | 0, _ => (none, [.error (exhaustedMsg maxAttempts)])
  | fuel + 1, attempt =>
    let shuffledIds := shuffle ids (randoms attempt)
    if isDerangement ids shuffledIds then
      (some (List.zipWith (fun g r => ⟨g, r⟩) ids shuffledIds),
       [.log (successMsg attempt)])
    else
      generateAttempts ids randoms maxAttempts fuel (attempt + 1)

/-- `generateDerangement` from the derangement module.  The `Math.random()`
draws are the oracle `randoms`: attempt number `k` shuffles with the choice
list `randoms k`.  The result pairs the source's return value (`null` is
`none`; on success assignment `k` maps giver `ids[k]` to receiver
`shuffledIds[k]`) with the console output of the call. -/
def generateDerangement (participants : List Participant)
    (randoms : Nat → List Nat) (maxAttempts : Nat) :
    Option (List Assignment) × List ConsoleEntry :=
  if participants.length < 2 then
    (none, [.error insufficientMsg])
  else
    generateAttempts (participants.map (·.id)) randoms maxAttempts maxAttempts 0

example :
    (generateDerangement [⟨"X", "X"⟩, ⟨"Y", "Y"⟩] (fun _ => [0]) 1000).fst =
      some [⟨"X", "Y"⟩, ⟨"Y", "X"⟩] := by decide
example :
    generateDerangement [⟨"X", "X"⟩] (fun _ => [0]) 1000 =
      (none, [.error insufficientMsg]) := by decide

/-- A successful attempt loop returns the pairing of `ids` with the first
deranged shuffle. -/
theorem generateAttempts_success (ids : List String) (randoms : Nat → List Nat)
    (maxA : Nat) :
    ∀ (fuel attempt : Nat) (as : List Assignment) (es : List ConsoleEntry),
      generateAttempts ids randoms maxA fuel attempt = (some as, es) →
      ∃ k, isDerangement ids (shuffle ids (randoms k)) = true ∧
        as = List.zipWith (fun g r => ⟨g, r⟩) ids (shuffle ids (randoms k)) := by
  intro fuel
  induction fuel with
  | zero =>
    intro attempt as es h
    simp [generateAttempts] at h
  | succ fuel ih =>
    intro attempt as es h
    simp only [generateAttempts] at h
    split_ifs at h with hd
    · refine ⟨attempt, hd, ?_⟩
      injection h with h1 h2
      exact (Option.some.inj h1).symm
    · exact ih _ as es h

/-- When every attempt in the window fails the derangement check, the loop
exhausts its fuel and reports the exhausted error with a `null` result. -/
theorem generateAttempts_exhaust (ids : List String) (randoms : Nat → List Nat)
    (maxA : Nat) :
    ∀ (fuel attempt : Nat),
      (∀ k, attempt ≤ k → k < attempt + fuel →
        isDerangement ids (shuffle ids (randoms k)) = false) →
      generateAttempts ids randoms maxA fuel attempt =
        (none, [.error (exhaustedMsg maxA)]) := by
  intro fuel
  induction fuel with
  | zero => intro attempt h; rfl
  | succ fuel ih =>
    intro attempt h
    have hnow : isDerangement ids (shuffle ids (randoms attempt)) = false :=
      h attempt (le_refl _) (by omega)
    simp only [generateAttempts]
    rw [if_neg (by simp [hnow])]
    exact ih (attempt + 1) fun k hk1 hk2 => h k (by omega) (by omega)

/-- The attempt loop only ever consults the oracle at the attempt numbers of
its window: oracles that agree there produce identical results. -/
theorem generateAttempts_congr (ids : List String) (r r' : Nat → List Nat)
    (maxA : Nat) :
    ∀ (fuel attempt : Nat), (∀ k, attempt ≤ k → k < attempt + fuel → r k = r' k) →
      generateAttempts ids r maxA fuel attempt =
        generateAttempts ids r' maxA fuel attempt := by
  intro fuel
  induction fuel with
  | zero => intro attempt h; rfl
  | succ fuel ih =>
    intro attempt h
    have hr : r attempt = r' attempt := h attempt (le_refl _) (by omega)
    simp only [generateAttempts, hr]
    split_ifs with hd
    · rfl
    · exact ih (attempt + 1) fun k hk1 hk2 => h k (by omega) (by omega)

/-- The two failure messages differ (first characters `F` and `N`). -/
theorem exhaustedMsg_ne_insufficientMsg (m : Nat) : exhaustedMsg m ≠ insufficientMsg := by
  intro h
  have hd := congrArg (fun s : String => s.data.head?) h
  rw [exhaustedMsg, insufficientMsg] at hd
  simp only [String.data_append, List.cons_append, List.head?_cons] at hd
  cases hd

/-- C4: with fewer than 2 participants `generateDerangement` refuses
defensively — it returns the `null`-with-`INSUFFICIENT_PARTICIPANTS`-error
outcome without ever shuffling (and, being a total function, cannot crash
or throw). -/
theorem generateDerangement_insufficient (ps : List Participant)
    (randoms : Nat → List Nat) (maxAttempts : Nat) (h : ps.length < 2) :
    generateDerangement ps randoms maxAttempts =
      (none, [.error insufficientMsg]) := by
  rw [generateDerangement, if_pos h]

/-- Closed instance of C4 at the empty and the singleton participant list. -/
theorem generateDerangement_insufficient_witness :
    generateDerangement [] (fun _ => []) 1000 = (none, [.error insufficientMsg]) :=
  generateDerangement_insufficient [] (fun _ => []) 1000 (by decide)

/-- C5: with at least 2 participants the generator consults the oracle only
for attempts `0, …, maxAttempts - 1`; if every one of those shuffles fails
the derangement check it returns the `null`-with-`EXHAUSTED`-error outcome,
which differs from the `INSUFFICIENT_PARTICIPANTS` outcome (the two
`console.error` messages disagree). -/
theorem generateDerangement_attempt_budget (ps : List Participant)
    (r r' : Nat → List Nat) (maxAttempts : Nat) (h2 : 2 ≤ ps.length) :
    ((∀ k, k < maxAttempts → r k = r' k) →
      generateDerangement ps r maxAttempts = generateDerangement ps r' maxAttempts) ∧
    ((∀ k, k < maxAttempts →
        isDerangement (ps.map (·.id)) (shuffle (ps.map (·.id)) (r k)) = false) →
      generateDerangement ps r maxAttempts =
        (none, [.error (exhaustedMsg maxAttempts)])) ∧
    ((none, [ConsoleEntry.error (exhaustedMsg maxAttempts)]) ≠
      ((none : Option (List Assignment)), [ConsoleEntry.error insufficientMsg])) := by
  refine ⟨fun hagree => ?_, fun hfail => ?_, ?_⟩
  · rw [generateDerangement, generateDerangement, if_neg (by omega), if_neg (by omega)]
    exact generateAttempts_congr (ps.map (·.id)) r r' maxAttempts maxAttempts 0
      fun k hk1 hk2 => hagree k (by omega)
  · rw [generateDerangement, if_neg (by omega)]
    exact generateAttempts_exhaust (ps.map (·.id)) r maxAttempts maxAttempts 0
      fun k hk1 hk2 => hfail k (by omega)
  · intro h
    injection h with h1 h2
    injection h2 with h3 h4
    exact exhaustedMsg_ne_insufficientMsg maxAttempts (ConsoleEntry.error.inj h3)

/-- Closed instance of C5: with one attempt and an oracle that always draws
the identity permutation on a two-person list, the run exhausts. -/
theorem generateDerangement_attempt_budget_witness :
    (generateDerangement [⟨"X", "X"⟩, ⟨"Y", "Y"⟩] (fun _ => [1]) 1 =
      generateDerangement [⟨"X", "X"⟩, ⟨"Y", "Y"⟩] (fun _ => [1]) 1) ∧
    (generateDerangement [⟨"X", "X"⟩, ⟨"Y", "Y"⟩] (fun _ => [1]) 1 =
      (none, [.error (exhaustedMsg 1)])) ∧
    ((none, [ConsoleEntry.error (exhaustedMsg 1)]) ≠
      ((none : Option (List Assignment)), [ConsoleEntry.error insufficientMsg])) := by
  have h := generateDerangement_attempt_budget [⟨"X", "X"⟩, ⟨"Y", "Y"⟩]
    (fun _ => [1]) (fun _ => [1]) 1 (by decide)
  exact ⟨h.1 fun k hk => rfl, h.2.1 (by decide), h.2.2⟩

/-- `isDerangement` checks exactly that no position holds the same id in
both lists (comparisons through positions of `original`). -/
theorem isDerangement_iff (l m : List String) :
    isDerangement l m = true ↔ ∀ k, k < l.length → l.get? k ≠ m.get? k := by
  simp [isDerangement, List.all_eq_true, List.mem_range, bne_iff_ne]

/-- Pairing equal-length lists into assignments and projecting back. -/
theorem zipWith_mk_map (ids : List String) :
    ∀ sh : List String, sh.length = ids.length →
      ((List.zipWith (fun g r => (⟨g, r⟩ : Assignment)) ids sh).map (·.giverId) = ids ∧
       (List.zipWith (fun g r => (⟨g, r⟩ : Assignment)) ids sh).map (·.receiverId) = sh) := by
  induction ids with
  | nil =>
    intro sh h
    have hsh : sh = [] := List.length_eq_zero.mp h
    subst hsh
    exact ⟨rfl, rfl⟩
  | cons i ids ih =>
    intro sh h
    rcases sh with _ | ⟨s, sh⟩
    · simp at h
    · simp only [List.zipWith_cons_cons, List.map_cons]
      obtain ⟨h1, h2⟩ := ih sh (by simpa using h)
      rw [h1, h2]
      exact ⟨rfl, rfl⟩

/-- A deranged shuffle paired with its original produces no self-assignment
anywhere in the list. -/
theorem zipWith_derangement_ne (ids sh : List String) (hlen : sh.length = ids.length)
    (hd : isDerangement ids sh = true) :
    ∀ a ∈ List.zipWith (fun g r => (⟨g, r⟩ : Assignment)) ids sh,
      a.giverId ≠ a.receiverId := by
  intro a ha
  obtain ⟨⟨k, hk⟩, hget⟩ := List.mem_iff_get.mp ha
  have hk1 : k < ids.length := by
    have hk' := hk
    rw [List.length_zipWith, hlen, Nat.min_self] at hk'
    exact hk'
  have hk2 : k < sh.length := by omega
  rw [isDerangement_iff] at hd
  have hne := hd k hk1
  rw [List.get?_eq_get hk1, List.get?_eq_get hk2] at hne
  rw [List.get_zipWith] at hget
  subst hget
  intro he
  exact hne (congrArg some he)

/-- Any successful run of the generator returns the original ids paired with
some deranged rearrangement of them. -/
theorem generateDerangement_some (ps : List Participant) (randoms : Nat → List Nat)
    (maxAttempts : Nat) (as : List Assignment) (es : List ConsoleEntry)
    (h : generateDerangement ps randoms maxAttempts = (some as, es)) :
    ∃ sh : List String, List.Perm sh (ps.map (·.id)) ∧
      isDerangement (ps.map (·.id)) sh = true ∧
      as = List.zipWith (fun g r => (⟨g, r⟩ : Assignment)) (ps.map (·.id)) sh := by
  rw [generateDerangement] at h
  split_ifs at h with hlt
  · simp at h
  · obtain ⟨k, hd, has⟩ := generateAttempts_success _ _ _ _ _ _ _ h
    exact ⟨shuffle (ps.map (·.id)) (randoms k), shuffle_perm _ _, hd, has⟩

/-- C2: on success the givers are exactly the participant ids in input
order, the receivers are a rearrangement of the participant ids, and no
position assigns a giver to itself — for every oracle outcome. -/
theorem generateDerangement_success_spec (ps : List Participant)
    (randoms : Nat → List Nat) (maxAttempts : Nat) (as : List Assignment)
    (es : List ConsoleEntry)
    (h : generateDerangement ps randoms maxAttempts = (some as, es)) :
    as.map (·.giverId) = ps.map (·.id) ∧
    List.Perm (as.map (·.receiverId)) (ps.map (·.id)) ∧
    ∀ (k : Nat) (hk : k < as.length),
      (as.get ⟨k, hk⟩).giverId ≠ (as.get ⟨k, hk⟩).receiverId := by
  obtain ⟨sh, hperm, hd, rfl⟩ := generateDerangement_some ps randoms maxAttempts as es h
  have hlen : sh.length = (ps.map (·.id)).length := hperm.length_eq
  obtain ⟨hg, hr⟩ := zipWith_mk_map (ps.map (·.id)) sh hlen
  refine ⟨hg, ?_, ?_⟩
  · rw [hr]; exact hperm
  · intro k hk
    exact zipWith_derangement_ne (ps.map (·.id)) sh hlen hd _ (List.get_mem _ k hk)

/-- Closed instance of C2: the two-participant draw with the swap-drawing
oracle succeeds in one attempt. -/
theorem generateDerangement_success_spec_witness :
    (([⟨"X", "Y"⟩, ⟨"Y", "X"⟩] : List Assignment).map (·.giverId) =
      ([⟨"X", "X"⟩, ⟨"Y", "Y"⟩] : List Participant).map (·.id)) ∧
    List.Perm (([⟨"X", "Y"⟩, ⟨"Y", "X"⟩] : List Assignment).map (·.receiverId))
      (([⟨"X", "X"⟩, ⟨"Y", "Y"⟩] : List Participant).map (·.id)) ∧
    ∀ (k : Nat) (hk : k < ([⟨"X", "Y"⟩, ⟨"Y", "X"⟩] : List Assignment).length),
      (([⟨"X", "Y"⟩, ⟨"Y", "X"⟩] : List Assignment).get ⟨k, hk⟩).giverId ≠
        (([⟨"X", "Y"⟩, ⟨"Y", "X"⟩] : List Assignment).get ⟨k, hk⟩).receiverId :=
  generateDerangement_success_spec [⟨"X", "X"⟩, ⟨"Y", "Y"⟩] (fun _ => [0]) 1
    [⟨"X", "Y"⟩, ⟨"Y", "X"⟩] [.log (successMsg 0)] (by decide)

/-- C3: over pairwise-distinct participant ids, every successful generation
passes `validateAssignments`. -/
theorem generateDerangement_validates (ps : List Participant)
    (randoms : Nat → List Nat) (maxAttempts : Nat) (as : List Assignment)
    (es : List ConsoleEntry) (hnd : (ps.map (·.id)).Nodup)
    (h : generateDerangement ps randoms maxAttempts = (some as, es)) :
    validateAssignments ps as = true := by
  obtain ⟨sh, hperm, hd, rfl⟩ := generateDerangement_some ps randoms maxAttempts as es h
  have hlen : sh.length = (ps.map (·.id)).length := hperm.length_eq
  obtain ⟨hg, hr⟩ := zipWith_mk_map (ps.map (·.id)) sh hlen
  rw [validateAssignments_eq_true_iff]
  refine ⟨?_, ?_, ?_, ?_⟩
  · rw [← List.length_map _ (·.giverId), hg, List.length_map]
  · intro a ha
    refine ⟨?_, ?_, zipWith_derangement_ne (ps.map (·.id)) sh hlen hd a ha⟩
    · have := List.mem_map_of_mem (·.giverId) ha
      rw [hg] at this
      exact this
    · have := List.mem_map_of_mem (·.receiverId) ha
      rw [hr] at this
      exact hperm.subset this
  · rw [hg]; exact hnd
  · rw [hr]; exact hperm.nodup_iff.mpr hnd

/-- Closed instance of C3 on the concrete two-participant success. -/
theorem generateDerangement_validates_witness :
    validateAssignments [⟨"X", "X"⟩, ⟨"Y", "Y"⟩] [⟨"X", "Y"⟩, ⟨"Y", "X"⟩] = true :=
  generateDerangement_validates [⟨"X", "X"⟩, ⟨"Y", "Y"⟩] (fun _ => [0]) 1
    [⟨"X", "Y"⟩, ⟨"Y", "X"⟩] [.log (successMsg 0)] (by decide) (by decide)

/-- A permutation of a two-element list is one of the two arrangements. -/
theorem perm_pair_eq {α : Type _} {l : List α} {a b : α} (h : List.Perm l [a, b]) :
    l = [a, b] ∨ l = [b, a] := by
  rcases l with _ | ⟨c, l⟩
  · exact absurd h.length_eq (by simp)
  rcases l with _ | ⟨d, l⟩
  · exact absurd h.length_eq (by simp)
  rcases l with _ | ⟨e, l⟩
  case cons.cons.cons => exact absurd h.length_eq (by simp)
  have hc : c ∈ [a, b] := h.subset (by simp)
  rcases List.mem_cons.mp hc with rfl | hc
  · left
    have hs : [d] ~ [b] := h.cons_inv
    rw [List.perm_singleton.mp hs]
  · have hcb : c = b := List.mem_singleton.mp hc
    subst hcb
    right
    have hs : c :: [d] ~ c :: [a] := h.trans (List.Perm.swap c a [])
    rw [List.perm_singleton.mp hs.cons_inv]

/-- C8 counterexample: with two participants the generator does NOT return
the swap for every outcome of the internal random choices — an oracle that
draws `j = 1` (the identity swap) on every one of the 1000 attempts makes
every shuffle the identity permutation, so the run exhausts and returns
`null` instead of an assignment list. -/
theorem generateDerangement_two_counterexample :
    (generateDerangement [⟨"X", "X"⟩, ⟨"Y", "Y"⟩] (fun _ => [1]) 1000).fst = none ∧
    (none : Option (List Assignment)) ≠ some [⟨"X", "Y"⟩, ⟨"Y", "X"⟩] := by
  have h : generateDerangement [⟨"X", "X"⟩, ⟨"Y", "Y"⟩] (fun _ => [1]) 1000 =
      (none, [.error (exhaustedMsg 1000)]) := by
    rw [generateDerangement, if_neg (by decide)]
    exact generateAttempts_exhaust _ _ _ _ _ fun k hk1 hk2 => by decide
  rw [h]
  exact ⟨rfl, by decide⟩

/-- C8 (amended): for two participants with distinct ids, whenever the
generator does return an assignment list — under any oracle outcome and any
attempt budget — that list is the single swap `X→Y, Y→X`, the only
derangement of two elements; an all-identity-draw outcome can instead
exhaust the budget, so success is not guaranteed for every outcome. -/
theorem generateDerangement_two_spec (x y nx ny : String)
    (randoms : Nat → List Nat) (maxAttempts : Nat) (as : List Assignment)
    (es : List ConsoleEntry) (hxy : x ≠ y)
    (h : generateDerangement [⟨x, nx⟩, ⟨y, ny⟩] randoms maxAttempts = (some as, es)) :
    as = [⟨x, y⟩, ⟨y, x⟩] := by
  obtain ⟨sh, hperm, hd, rfl⟩ :=
    generateDerangement_some [⟨x, nx⟩, ⟨y, ny⟩] randoms maxAttempts as es h
  simp only [List.map_cons, List.map_nil] at hperm hd ⊢
  rcases perm_pair_eq hperm with rfl | rfl
  · rw [isDerangement_iff] at hd
    exact absurd rfl (hd 0 (by simp))
  · rfl

/-- Closed instance of the amended C8 at the swap-drawing oracle. -/
theorem generateDerangement_two_spec_witness :
    ([⟨"X", "Y"⟩, ⟨"Y", "X"⟩] : List Assignment) = [⟨"X", "Y"⟩, ⟨"Y", "X"⟩] :=
  generateDerangement_two_spec "X" "Y" "X" "Y" (fun _ => [0]) 1
    [⟨"X", "Y"⟩, ⟨"Y", "X"⟩] [.log (successMsg 0)] (by decide) (by decide)

/-- C5 counterexample: the value the generator returns to its caller is the
same `null` in the exhausted case (two participants, every draw the identity
permutation) as in the insufficient-participants case (no participants), so
the caller cannot tell the two failures apart from the returned value; only
the logged `console.error` messages differ. -/
theorem generateDerangement_failure_values_equal :
    (generateDerangement [⟨"X", "X"⟩, ⟨"Y", "Y"⟩] (fun _ => [1]) 1000).fst =
      (generateDerangement [] (fun _ => [1]) 1000).fst := by
  have h : generateDerangement [⟨"X", "X"⟩, ⟨"Y", "Y"⟩] (fun _ => [1]) 1000 =
      (none, [.error (exhaustedMsg 1000)]) := by
    rw [generateDerangement, if_neg (by decide)]
    exact generateAttempts_exhaust _ _ _ _ _ fun k hk1 hk2 => by decide
  rw [h, generateDerangement, if_pos (by decide)]

/-- C6 counterexample: over an input with a repeated element the
choice-sequence-to-permutation map is not one-to-one — the two distinct
valid choice sequences `[0]` and `[1]` both produce the rearrangement
`["a", "a"]` of `["a", "a"]`, so "every permutation of the input is produced
by exactly one choice sequence" fails for inputs with duplicates. -/
theorem shuffle_choices_not_unique_counterexample :
    ValidChoices (["a", "a"] : List String).length [0] ∧
    ValidChoices (["a", "a"] : List String).length [1] ∧
    shuffle (["a", "a"] : List String) [0] = ["a", "a"] ∧
    shuffle (["a", "a"] : List String) [1] = ["a", "a"] ∧
    ([0] : List Nat) ≠ [1] :=
  ⟨⟨by omega, rfl⟩, ⟨by omega, rfl⟩, by decide, by decide, by decide⟩

end SecretSanta
